import Mathlib

/-!
Verification of the type-level utility in src/valueTypeOfOptions.ts.

The repository consists of one compile-time type computation, ValueOfOptions,
built from the helpers KeyofOptions, Merge, ExcludeOptionTypeInUnion,
HaveValueOption, HaveValueOptionInUnion and MaybeHaveValueOptionInUnion,
plus one four-line runtime harness, testFunc, and example array literals.

We shallowly embed the fragment of the structural type system that the
source exercises:

* PTy models the atomic types that occur as parts of a field type in the
  source: the primitives string, number and boolean, the literal types
  produced by const assertions, undefined, and unknown (the inference
  result when no candidate exists).
* VTy, a list of PTy, models a union of atoms; the empty list is the
  empty union, never.  Union types in the checker are flat and
  deduplicated; unionV mirrors that normalisation.
* OTy models an object type as a list of fields (key, type, optional flag).
  Every element type in the source is such an object; field types in the
  source are unions of atoms, which is the fragment OTy covers.
* OptionsTy models the type of the options array: a mutable array of a
  union of object shapes (the type the checker infers for a plain array
  literal), a readonly array, or a readonly tuple (the type of a
  const-asserted literal).

Assignability (subP, subV, subO) follows the structural rules the checker
applies on this fragment: a literal is assignable to its primitive,
everything is assignable to unknown, a union source must have every part
assignable, a union target needs one part, and an object source must
satisfy every field of the target, where an optional target field accepts
an absent field, and a present field whose type is assignable to the field
type or undefined; a required target field demands a required source field
of assignable type.

Inference (inferValue1, inferValue2) mirrors how the checker resolves the
two conditional types of ValueOfOptions: it gathers the captured Value
candidates from the elements and then re-checks the whole match with the
inferred union.  For the first conditional the elements that are already
assignable to the reconstructed excluded-option shape contribute no
candidate; with no candidate at all the inferred type is unknown.  The
expected results recorded as comments beside the six example invocations
in the source all hold of this model and are proved below.

The runtime harness testFunc is modelled with an explicit rational
parameter r with 0 <= r < 1 standing for the value returned by
Math.random, and the callback argument is an Option: none models the
undefined produced by an out-of-bounds index access in the language.
-/

/-- Atomic types of the embedded fragment. -/
inductive PTy : Type where
  | str
  | num
  | boolean
  | undef
  | unknown
  | litStr (s : String)
  | litNum (n : Int)
  | litBool (b : Bool)
deriving DecidableEq, Repr

/-- A union of atoms; the empty list is the type never. -/
abbrev VTy := List PTy

/-- An object type: a list of fields (key, field type, optional flag). -/
abbrev OTy := List (String × VTy × Bool)

/-- The type of an options array: a mutable array of a union of object
shapes, a readonly array, or a readonly (const-asserted) tuple. -/
inductive OptionsTy : Type where
  | arr (ms : List OTy)
  | roArr (ms : List OTy)
  | tuple (ms : List OTy)
deriving DecidableEq, Repr

/-- The member object shapes of the element type of an options array. -/
def elems : OptionsTy → List OTy
  | .arr ms => ms
  | .roArr ms => ms
  | .tuple ms => ms

/-- The key "value", the field captured by the inference. -/
def valueKey : String := "value"

/-- The key "isDivider", the field marking a non-clickable entry. -/
def dividerKey : String := "isDivider"

/-- Assignability of atoms: every atom is assignable to unknown, a literal
is assignable to its primitive, and otherwise atoms must be equal. -/
def subP : PTy → PTy → Bool
  | _, .unknown => true
  | .litStr _, .str => true
  | .litNum _, .num => true
  | .litBool _, .boolean => true
  | x, y => decide (x = y)

/-- Assignability of unions: every part of the source must be assignable
to some part of the target. -/
def subV (xs ys : VTy) : Bool :=
  xs.all fun x => ys.any fun y => subP x y

/-- First field of an object type with the given key, as the checker
resolves a property access. -/
def lookupF : OTy → String → Option (VTy × Bool)
  | [], _ => none
  | f :: fs, k => if f.1 = k then some f.2 else lookupF fs k

/-- The check a target field (type Tt, optionality topt) imposes on a
present source field (type Ts, optionality sopt): an optional target
accepts a source type assignable to the field type or undefined, a
required target demands a required source of assignable type. -/
def acceptsField (Tt : VTy) (topt : Bool) (Ts : VTy) (sopt : Bool) : Bool :=
  if topt then subV Ts (PTy.undef :: Tt) else !sopt && subV Ts Tt

/-- Structural assignability of object types: every field of the target
must be satisfied by the source; a missing source field is only allowed
for an optional target field. -/
def subO (fs gs : OTy) : Bool :=
  gs.all fun g =>
    match lookupF fs g.1 with
    | some st => acceptsField g.2.1 g.2.2 st.1 st.2
    | none => g.2.2

/-- Whether an object type declares the given key. -/
def hasKeyO (fs : OTy) (k : String) : Bool :=
  fs.any fun f => decide (f.1 = k)

/-- The declared keys of an object type. -/
def keysO (fs : OTy) : List String :=
  fs.map fun f => f.1

/-- Embedding of KeyofOptions from the source: the conditional
A extends (infer T)[] ? keyof T : never.  Only a mutable array type
matches the mutable array pattern, and keyof applied to a union of object
shapes yields the keys common to every member; a readonly array or a
readonly tuple does not match, yielding never, here the empty key list. -/
def KeyofOptions : OptionsTy → List String
  | .arr ms =>
    match ms with
    | [] => []
    | m :: rest => rest.foldl (fun acc m2 => acc.filter fun k => hasKeyO m2 k) (keysO m)
  | .roArr _ => []
  | .tuple _ => []

/-- Embedding of ExcludeOptionTypeInUnion from the source:
Merge of the mapped type over Exclude of Keys by the keys of the excluded
shape, each mapped key becoming an optional field of type never,
intersected with the excluded shape.  The mapped type ranges over the
distinct keys, and since its keys are disjoint from those of the excluded
shape the merge of the intersection is the concatenation of the fields. -/
def ExcludeOptionTypeInUnion (Keys : List String) (E : OTy) : OTy :=
  ((Keys.dedup.filter fun k => !(hasKeyO E k)).map fun k => (k, ([] : VTy), true)) ++ E

/-- Embedding of HaveValueOption from the source: the shape with one
required field, value of the captured type. -/
def HaveValueOption (V : VTy) : OTy :=
  [(valueKey, V, false)]

/-- Embedding of MaybeHaveValueOptionInUnion from the source: the
intersection of Record of any with a shape whose only field is an
optional value; on object sources the record part is vacuous, leaving the
shape with one optional value field. -/
def MaybeHaveValueOptionInUnion (V : VTy) : OTy :=
  [(valueKey, V, true)]

/-- Embedding of the union inside HaveValueOptionInUnion from the source:
the element union HaveValueOption of Value together with the
reconstructed excluded-option shape. -/
def HaveValueOptionInUnion (O : OptionsTy) (E : OTy) (V : VTy) : List OTy :=
  [HaveValueOption V, ExcludeOptionTypeInUnion (KeyofOptions O) E]

/-- The type of the value field of a member as an inference candidate: the
declared type, with undefined added when the field is optional; none when
the member has no value field. -/
def valueFieldCand (m : OTy) : Option VTy :=
  match lookupF m valueKey with
  | some st => some (if st.2 then st.1 ++ [PTy.undef] else st.1)
  | none => none

/-- Union of a list of unions, flattened and deduplicated as the checker
normalises union types. -/
def unionV (l : List VTy) : VTy :=
  (l.flatMap id).dedup

/-- The Value the checker infers for the first conditional of
ValueOfOptions: candidates are the value field types of the members not
already assignable to the reconstructed excluded-option shape; with no
candidate the inference falls back to unknown. -/
def inferValue1 (O : OptionsTy) (E : OTy) : VTy :=
  let excl := ExcludeOptionTypeInUnion (KeyofOptions O) E
  match (elems O).filterMap (fun m => if subO m excl then none else valueFieldCand m) with
  | [] => [PTy.unknown]
  | c :: cs => unionV (c :: cs)

/-- The Value the checker infers for the second conditional of
ValueOfOptions: candidates are the value field types of all members. -/
def inferValue2 (O : OptionsTy) : VTy :=
  match (elems O).filterMap valueFieldCand with
  | [] => [PTy.unknown]
  | c :: cs => unionV (c :: cs)

/-- The check Options extends Readonly of an array of a union of object
shapes: every member of the element type of Options must be assignable to
some shape of the union.  A mutable array, a readonly array and a
readonly tuple are all assignable to a readonly array of their element
types. -/
def subOptionsUnionArr (O : OptionsTy) (us : List OTy) : Bool :=
  (elems O).all fun m => us.any fun u => subO m u

/-- The check Options extends Readonly of an array of one object shape. -/
def subOptionsArr (O : OptionsTy) (u : OTy) : Bool :=
  (elems O).all fun m => subO m u

/-- Embedding of the top-level ValueOfOptions from the source: if Options
matches the readonly array of HaveValueOption of Value or the
reconstructed excluded-option shape, the result is the captured Value;
otherwise, if Options matches a readonly array of the optional-value
shape, the result is the captured Value with undefined added; otherwise
the result is never. -/
def ValueOfOptions (O : OptionsTy) (E : OTy) : VTy :=
  let V1 := inferValue1 O E
  if subOptionsUnionArr O (HaveValueOptionInUnion O E V1) then V1
  else
    let V2 := inferValue2 O
    if subOptionsArr O (MaybeHaveValueOptionInUnion V2) then unionV [V2, [PTy.undef]]
    else []

/-- The excluded-option shape IsDividerOption of the source: one required
field isDivider of type boolean. -/
def IsDividerOption : OTy :=
  [(dividerKey, [PTy.boolean], false)]

/-- The checker type of the const-asserted literal constOptions: a
readonly tuple of three object shapes with literal field types. -/
def constOptionsTy : OptionsTy :=
  .tuple [
    [(valueKey, [PTy.litStr "a"], false)],
    [(valueKey, [PTy.litStr "b"], false)],
    [(dividerKey, [PTy.litBool false], false)]]

/-- The checker type of the const-asserted literal
constOptionalValueOptions: constOptions with one further member carrying
only a label. -/
def constOptionalValueOptionsTy : OptionsTy :=
  .tuple [
    [(valueKey, [PTy.litStr "a"], false)],
    [(valueKey, [PTy.litStr "b"], false)],
    [(dividerKey, [PTy.litBool false], false)],
    [("label", [PTy.litStr "a"], false)]]

/-- The checker type of the plain literal stringOptions: a mutable array
of the union of the two widened member shapes, each member completed with
the keys of its siblings as optional fields of type undefined, as the
comment block of the source describes. -/
def stringOptionsTy : OptionsTy :=
  .arr [
    [(valueKey, [PTy.str], false), (dividerKey, [PTy.undef], true)],
    [(valueKey, [PTy.undef], true), (dividerKey, [PTy.boolean], false)]]

/-- The checker type of the plain literal numberOptions. -/
def numberOptionsTy : OptionsTy :=
  .arr [
    [(valueKey, [PTy.num], false), (dividerKey, [PTy.undef], true)],
    [(valueKey, [PTy.undef], true), (dividerKey, [PTy.boolean], false)]]

/-- The checker type of the plain literal stringOptionalValueOptions: the
third member carries only a label, so its value field is the added
optional undefined. -/
def stringOptionalValueOptionsTy : OptionsTy :=
  .arr [
    [(valueKey, [PTy.str], false), (dividerKey, [PTy.undef], true), ("label", [PTy.undef], true)],
    [(valueKey, [PTy.undef], true), (dividerKey, [PTy.boolean], false), ("label", [PTy.undef], true)],
    [(valueKey, [PTy.undef], true), (dividerKey, [PTy.undef], true), ("label", [PTy.str], false)]]

/-- The checker type of the plain literal manyFieldOptions. -/
def manyFieldOptionsTy : OptionsTy :=
  .arr [
    [(valueKey, [PTy.str], false), ("label", [PTy.str], false),
     ("className", [PTy.str], false), (dividerKey, [PTy.undef], true)],
    [(valueKey, [PTy.str], false), ("label", [PTy.undef], true),
     ("className", [PTy.str], false), (dividerKey, [PTy.undef], true)],
    [(valueKey, [PTy.undef], true), ("label", [PTy.undef], true),
     ("className", [PTy.undef], true), (dividerKey, [PTy.boolean], false)]]

/-- The options array type of the counterexample to the key-union
reading of KeyofOptions: a mutable array whose two member shapes have
disjoint keys. -/
def keyCexOptionsTy : OptionsTy :=
  .arr [[("a", [PTy.num], false)], [("b", [PTy.num], false)]]

/-- Modelled from the spec wording of the KeyofOptions claim: the union
of all keys appearing across every member shape of the element type. -/
def allKeysOfOptions (O : OptionsTy) : List String :=
  ((elems O).flatMap keysO).dedup

/-- Runtime values of the harness: strings, numbers, booleans and
undefined. -/
inductive JsVal : Type where
  | vstr (s : String)
  | vnum (q : ℚ)
  | vbool (b : Bool)
  | vundef
deriving DecidableEq, Repr

/-- A runtime object: a list of key and value pairs. -/
abbrev JsObj := List (String × JsVal)

/-- The in operator of the language on an object: whether the object has
an own property with the given key. -/
def hasKey (o : JsObj) (k : String) : Bool :=
  o.any fun f => decide (f.1 = k)

/-- Index access on an array: a runtime index outside the bounds yields
undefined, never an error; here none models undefined. -/
def jsIndex {α : Type} (l : List α) (i : Int) : Option α :=
  if 0 ≤ i then l.get? i.toNat else none

/-- Embedding of the runtime body of testFunc from the source.  The
rational r with 0 <= r < 1 stands for the result of Math.random; the
floor of r times the filtered length is the randomIndex of the source;
the callback receives the selected entry, or none for undefined when the
filtered array is empty.  The callback is abstract, so the result of the
whole call is exactly one invocation of the callback on that argument. -/
def testFunc {σ : Type} (options : List JsObj) (r : ℚ) (onClick : Option JsObj → σ) : σ :=
  let filteredOptions := options.filter fun opt => hasKey opt dividerKey
  let randomIndex := ⌊r * filteredOptions.length⌋
  onClick (jsIndex filteredOptions randomIndex)

/-- The runtime body of testFunc with every step in an error monad: the
filter, the floor and the index access of the language cannot raise, so
the only fallible step is the callback itself. -/
def testFuncE {σ : Type} (options : List JsObj) (r : ℚ)
    (onClick : Option JsObj → Except String σ) : Except String σ :=
  let filteredOptions := options.filter fun opt => hasKey opt dividerKey
  let randomIndex := ⌊r * filteredOptions.length⌋
  onClick (jsIndex filteredOptions randomIndex)

/-- The filter method of the language: it returns a new array and leaves
the receiver unchanged; the pair returns the receiver after the call
together with the new array. -/
def jsFilter {α : Type} (l : List α) (p : α → Bool) : List α × List α :=
  (l, l.filter p)

/-- The runtime body of testFunc with the options array threaded as
state: the first component of the result is the options array after the
call. -/
def testFuncSt {σ : Type} (options : List JsObj) (r : ℚ) (onClick : Option JsObj → σ) :
    List JsObj × σ :=
  let fp := jsFilter options fun opt => hasKey opt dividerKey
  let randomIndex := ⌊r * fp.2.length⌋
  (fp.1, onClick (jsIndex fp.2 randomIndex))

/-- The filtered array computed inside testFunc: the entries carrying the
divider-indicating key. -/
def filteredDividers (options : List JsObj) : List JsObj :=
  options.filter fun opt => hasKey opt dividerKey

/-- A concrete runtime options array with one divider entry. -/
def demoOptions : List JsObj :=
  [[(dividerKey, JsVal.vbool true)], [(valueKey, JsVal.vstr "a")]]

/-- A concrete runtime options array with no divider entry. -/
def noDividerOptions : List JsObj :=
  [[("label", JsVal.vstr "x")], [(valueKey, JsVal.vstr "a")]]

theorem subP_refl (p : PTy) : subP p p = true := by
  cases p <;> simp [subP]

theorem subP_undef (p : PTy) : subP p PTy.undef = decide (p = PTy.undef) := by
  cases p <;> rfl

theorem subV_of_subset {xs ys : VTy} (h : ∀ p ∈ xs, p ∈ ys) : subV xs ys = true := by
  simp only [subV, List.all_eq_true, List.any_eq_true]
  intro x hx
  exact ⟨x, h x hx, subP_refl x⟩

theorem mem_unionV {p : PTy} {c : VTy} {l : List VTy} (hc : c ∈ l) (hp : p ∈ c) :
    p ∈ unionV l := by
  simp only [unionV, List.mem_dedup, List.mem_flatMap]
  exact ⟨c, hc, hp⟩

theorem mem_inferValue2 {O : OptionsTy} {c : VTy}
    (hc : c ∈ (elems O).filterMap valueFieldCand) {p : PTy} (hp : p ∈ c) :
    p ∈ inferValue2 O := by
  unfold inferValue2
  cases hcs : (elems O).filterMap valueFieldCand with
  | nil => rw [hcs] at hc; cases hc
  | cons c0 cs =>
    rw [hcs] at hc
    exact mem_unionV hc hp

theorem subO_maybe (O : OptionsTy) (m : OTy) (hm : m ∈ elems O) :
    subO m (MaybeHaveValueOptionInUnion (inferValue2 O)) = true := by
  unfold subO MaybeHaveValueOptionInUnion
  simp only [List.all_cons, List.all_nil, Bool.and_true]
  cases hl : lookupF m valueKey with
  | none => rfl
  | some st =>
    simp only [acceptsField, if_pos]
    apply subV_of_subset
    intro p hp
    have hcand : (if st.2 then st.1 ++ [PTy.undef] else st.1) ∈ (elems O).filterMap valueFieldCand := by
      refine List.mem_filterMap.mpr ⟨m, hm, ?_⟩
      simp [valueFieldCand, hl]
    have hp2 : p ∈ (if st.2 then st.1 ++ [PTy.undef] else st.1) := by
      cases h2 : st.2
      · simpa [h2] using hp
      · simp only [h2, if_pos]
        exact List.mem_append_left _ hp
    exact List.mem_cons_of_mem _ (mem_inferValue2 hcand hp2)

/-- C1.  ValueOfOptions first pattern-matches the element type of the
options array against the union of the value-bearing variant and the
reconstructed excluded variant and, on a match, yields the captured
Value; when that match fails, every element matches the shape with an
optional value field (proved, not assumed, for the object elements of
the embedded fragment) and the result is the captured Value together
with undefined; in the remaining case the result would be never, the
empty union. -/
theorem valueOfOptions_cascade (O : OptionsTy) (E : OTy) :
    (subOptionsUnionArr O (HaveValueOptionInUnion O E (inferValue1 O E)) = true →
      ValueOfOptions O E = inferValue1 O E)
    ∧ (∀ m ∈ elems O, subO m (MaybeHaveValueOptionInUnion (inferValue2 O)) = true)
    ∧ (subOptionsUnionArr O (HaveValueOptionInUnion O E (inferValue1 O E)) = false →
      ValueOfOptions O E = unionV [inferValue2 O, [PTy.undef]])
    ∧ (subOptionsUnionArr O (HaveValueOptionInUnion O E (inferValue1 O E)) = false →
      subOptionsArr O (MaybeHaveValueOptionInUnion (inferValue2 O)) = false →
      ValueOfOptions O E = []) := by
  refine ⟨fun h => ?_, fun m hm => subO_maybe O m hm, fun h => ?_, fun h1 h2 => ?_⟩
  · simp [ValueOfOptions, h]
  · have hall : subOptionsArr O (MaybeHaveValueOptionInUnion (inferValue2 O)) = true := by
      simp only [subOptionsArr, List.all_eq_true]
      exact fun m hm => subO_maybe O m hm
    simp [ValueOfOptions, h, hall]
  · simp [ValueOfOptions, h1, h2]

/-- Witness for C1: at the type of stringOptions and the divider shape
the first match succeeds and the result is the captured Value. -/
theorem valueOfOptions_cascade_witness :
    ValueOfOptions stringOptionsTy IsDividerOption = inferValue1 stringOptionsTy IsDividerOption :=
  (valueOfOptions_cascade stringOptionsTy IsDividerOption).1 (by decide)

/-- C2.  The inferred value type for the const-asserted array
constOptions is the literal union of "a" and "b". -/
theorem valueOfOptions_constOptions :
    ValueOfOptions constOptionsTy IsDividerOption = [PTy.litStr "a", PTy.litStr "b"] := by
  decide

/-- C3.  The inferred value type for stringOptionalValueOptions is
string or undefined. -/
theorem valueOfOptions_stringOptionalValueOptions :
    ValueOfOptions stringOptionalValueOptionsTy IsDividerOption = [PTy.str, PTy.undef] := by
  decide

/-- C10.  The inferred value type for the const-asserted array
constOptionalValueOptions is the union of the literals "a" and "b" and
undefined, through the optional-value fallback branch. -/
theorem valueOfOptions_constOptionalValueOptions :
    ValueOfOptions constOptionalValueOptionsTy IsDividerOption
      = [PTy.litStr "a", PTy.litStr "b", PTy.undef] := by
  decide

/-- The fallback branch is the one taken for constOptionalValueOptions:
the first match fails on the label-only member. -/
theorem constOptionalValueOptions_first_match_fails :
    subOptionsUnionArr constOptionalValueOptionsTy
      (HaveValueOptionInUnion constOptionalValueOptionsTy IsDividerOption
        (inferValue1 constOptionalValueOptionsTy IsDividerOption)) = false := by
  decide

/-- The expected result recorded beside the stringOptions invocation. -/
theorem valueOfOptions_stringOptions :
    ValueOfOptions stringOptionsTy IsDividerOption = [PTy.str] := by
  decide

/-- The expected result recorded beside the numberOptions invocation. -/
theorem valueOfOptions_numberOptions :
    ValueOfOptions numberOptionsTy IsDividerOption = [PTy.num] := by
  decide

/-- The expected result recorded beside the manyFieldOptions invocation. -/
theorem valueOfOptions_manyFieldOptions :
    ValueOfOptions manyFieldOptionsTy IsDividerOption = [PTy.str] := by
  decide

theorem mem_keysO {m : OTy} {k : String} : k ∈ keysO m ↔ hasKeyO m k = true := by
  simp [keysO, hasKeyO, List.mem_map, List.any_eq_true]

theorem mem_foldl_filter_keys (ms : List OTy) (acc : List String) (k : String) :
    k ∈ ms.foldl (fun acc m2 => acc.filter fun k2 => hasKeyO m2 k2) acc
      ↔ k ∈ acc ∧ ∀ m ∈ ms, hasKeyO m k = true := by
  induction ms generalizing acc with
  | nil => simp
  | cons m ms ih =>
    simp only [List.foldl_cons, ih, List.mem_filter, List.forall_mem_cons]
    tauto

/-- C4 counterexample: on a mutable array whose two member shapes carry
disjoint keys, KeyofOptions is empty while the union of all keys across
the members is not, so KeyofOptions does not compute that union. -/
theorem keyofOptions_union_claim_cex :
    ¬ (∀ k : String, k ∈ KeyofOptions keyCexOptionsTy ↔ k ∈ allKeysOfOptions keyCexOptionsTy) := by
  intro h
  exact absurd ((h "a").mpr (by decide)) (by decide)

/-- C4 amended.  KeyofOptions yields, for a mutable array type, the keys
common to every member shape of the element type, the keyof of the
element union; for a readonly tuple or a readonly array, which do not
match the mutable array pattern, it yields never, the empty key list. -/
theorem keyofOptions_amended (m0 : OTy) (ms : List OTy) (k : String) :
    (k ∈ KeyofOptions (.arr (m0 :: ms)) ↔ ∀ m ∈ m0 :: ms, hasKeyO m k = true)
    ∧ (∀ ts : List OTy, KeyofOptions (.tuple ts) = [])
    ∧ (∀ ts : List OTy, KeyofOptions (.roArr ts) = []) := by
  refine ⟨?_, fun ts => rfl, fun ts => rfl⟩
  show k ∈ ms.foldl (fun acc m2 => acc.filter fun k2 => hasKeyO m2 k2) (keysO m0) ↔ _
  rw [mem_foldl_filter_keys]
  simp [List.forall_mem_cons, mem_keysO]

theorem lookupF_append (A B : OTy) (k : String) :
    lookupF (A ++ B) k
      = match lookupF A k with
        | some v => some v
        | none => lookupF B k := by
  induction A with
  | nil => rfl
  | cons f A ih =>
    by_cases hf : f.1 = k
    · simp [lookupF, hf]
    · simp [lookupF, hf, ih]

theorem lookupF_mapNever (ks : List String) (k : String) :
    lookupF (ks.map fun k2 => (k2, ([] : VTy), true)) k
      = if k ∈ ks then some ([], true) else none := by
  induction ks with
  | nil => simp [lookupF]
  | cons k0 ks ih =>
    by_cases h : k0 = k
    · simp [lookupF, h]
    · have hne : ¬(k = k0) := fun hh => h hh.symm
      simp [lookupF, h, ih, List.mem_cons, hne]

/-- C5.  ExcludeOptionTypeInUnion Keys E is the excluded shape E with
every key of Keys not already declared by E added back: the key set of
the result is the keys of E together with Keys, the fields of E are
looked up unchanged, each added key becomes an optional field of type
never, and the check such an optional never field imposes on a provided
field accepts exactly the types whose every part is undefined. -/
theorem excludeOptionTypeInUnion_spec (Keys : List String) (E : OTy) :
    (∀ k : String, hasKeyO (ExcludeOptionTypeInUnion Keys E) k = true
      ↔ (hasKeyO E k = true ∨ k ∈ Keys))
    ∧ (∀ k : String, hasKeyO E k = true →
      lookupF (ExcludeOptionTypeInUnion Keys E) k = lookupF E k)
    ∧ (∀ k : String, k ∈ Keys → hasKeyO E k = false →
      lookupF (ExcludeOptionTypeInUnion Keys E) k = some ([], true))
    ∧ (∀ (Ts : VTy) (sopt : Bool),
      acceptsField [] true Ts sopt = true ↔ ∀ p ∈ Ts, p = PTy.undef) := by
  refine ⟨fun k => ?_, fun k hk => ?_, fun k hkK hkE => ?_, fun Ts sopt => ?_⟩
  · have hkeys : keysO (ExcludeOptionTypeInUnion Keys E)
        = (Keys.dedup.filter fun k2 => !(hasKeyO E k2)) ++ keysO E := by
      simp only [ExcludeOptionTypeInUnion, keysO, List.map_append, List.map_map]
      congr 1
      show (Keys.dedup.filter fun k2 => !(hasKeyO E k2)).map (fun k2 => k2) = _
      exact List.map_id' _
    simp only [← mem_keysO]
    rw [hkeys, List.mem_append, List.mem_filter, List.mem_dedup]
    constructor
    · rintro (⟨hK, _⟩ | hE)
      · exact Or.inr hK
      · exact Or.inl hE
    · rintro (hE | hK)
      · exact Or.inr hE
      · by_cases hEk : k ∈ keysO E
        · exact Or.inr hEk
        · refine Or.inl ⟨hK, ?_⟩
          cases h2 : hasKeyO E k
          · rfl
          · exact absurd (mem_keysO.mpr h2) hEk
  · rw [ExcludeOptionTypeInUnion, lookupF_append, lookupF_mapNever]
    have : ¬ k ∈ Keys.dedup.filter fun k2 => !(hasKeyO E k2) := by
      simp only [List.mem_filter, List.mem_dedup, Bool.not_eq_true', not_and]
      intro _
      simp [hk]
    simp [this]
  · rw [ExcludeOptionTypeInUnion, lookupF_append, lookupF_mapNever]
    have : k ∈ Keys.dedup.filter fun k2 => !(hasKeyO E k2) := by
      simp only [List.mem_filter, List.mem_dedup, Bool.not_eq_true']
      exact ⟨hkK, hkE⟩
    simp [this]
  · simp [acceptsField, subV, List.all_eq_true, subP_undef]

/-- Witness for C5: with the keys value and isDivider and the divider
shape, the key value is added as an optional never field, and that field
accepts the type undefined. -/
theorem excludeOptionTypeInUnion_spec_witness :
    lookupF (ExcludeOptionTypeInUnion [valueKey, dividerKey] IsDividerOption) valueKey
      = some ([], true)
    ∧ (acceptsField [] true [PTy.undef] false = true ↔ ∀ p ∈ [PTy.undef], p = PTy.undef) :=
  ⟨(excludeOptionTypeInUnion_spec [valueKey, dividerKey] IsDividerOption).2.2.1 valueKey
      (by decide) (by decide),
    (excludeOptionTypeInUnion_spec [valueKey, dividerKey] IsDividerOption).2.2.2 [PTy.undef] false⟩

/-- C6.  testFunc filters its input to exactly the entries carrying the
divider-indicating key, picks the index floor of r times the filtered
length, and invokes the callback once with the selected entry itself;
when the filtered array is not empty the index is in bounds and, for
each position i, it equals i exactly when r lies in the interval from
i over n to i plus one over n, an interval of length one over n, so the
index is uniform in r. -/
theorem testFunc_spec {σ : Type} (options : List JsObj) (r : ℚ) (onClick : Option JsObj → σ)
    (h0 : 0 ≤ r) (h1 : r < 1) :
    (∀ o : JsObj, o ∈ filteredDividers options ↔ o ∈ options ∧ hasKey o dividerKey = true)
    ∧ testFunc options r onClick
        = onClick (jsIndex (filteredDividers options)
            ⌊r * ((filteredDividers options).length : ℚ)⌋)
    ∧ (0 < (filteredDividers options).length →
        0 ≤ ⌊r * ((filteredDividers options).length : ℚ)⌋
        ∧ ⌊r * ((filteredDividers options).length : ℚ)⌋ < (filteredDividers options).length
        ∧ ∀ i : ℕ, i < (filteredDividers options).length →
            (⌊r * ((filteredDividers options).length : ℚ)⌋ = i
              ↔ (i : ℚ) / ((filteredDividers options).length : ℚ) ≤ r
                ∧ r < ((i : ℚ) + 1) / ((filteredDividers options).length : ℚ))) := by
  refine ⟨fun o => List.mem_filter, rfl, fun hn => ?_⟩
  have hnq : (0 : ℚ) < ((filteredDividers options).length : ℚ) := by
    exact_mod_cast hn
  refine ⟨Int.floor_nonneg.mpr (mul_nonneg h0 (le_of_lt hnq)), ?_, fun i hi => ?_⟩
  · rw [Int.floor_lt]
    push_cast
    exact mul_lt_of_lt_one_left hnq h1
  · rw [Int.floor_eq_iff]
    rw [div_le_iff₀ hnq, lt_div_iff₀ hnq]
    push_cast
    constructor
    · exact fun ⟨ha, hb⟩ => ⟨ha, hb⟩
    · exact fun ⟨ha, hb⟩ => ⟨ha, hb⟩

/-- Witness for C6: with one divider entry and r one half, the callback
receives the selected entry. -/
theorem testFunc_spec_witness :
    testFunc demoOptions (1/2) some
      = some (jsIndex (filteredDividers demoOptions)
          ⌊(1/2 : ℚ) * ((filteredDividers demoOptions).length : ℚ)⌋) :=
  (testFunc_spec demoOptions (1/2) some (by norm_num) (by norm_num)).2.1

/-- C7.  In the error monad the body of testFunc consists only of steps
that cannot raise, so the call reduces to one callback invocation, and
with a callback that never raises the whole call never raises. -/
theorem testFuncE_no_error {σ : Type} (options : List JsObj) (r : ℚ)
    (onClick : Option JsObj → Except String σ)
    (hcb : ∀ x : Option JsObj, (onClick x).isOk = true) :
    testFuncE options r onClick
      = onClick (jsIndex (filteredDividers options)
          ⌊r * ((filteredDividers options).length : ℚ)⌋)
    ∧ (testFuncE options r onClick).isOk = true :=
  ⟨rfl, hcb _⟩

/-- Witness for C7: the empty array, r zero and an always-ok callback. -/
theorem testFuncE_no_error_witness :
    (testFuncE [] 0 (fun x => (Except.ok x : Except String (Option JsObj)))).isOk = true :=
  (testFuncE_no_error [] 0 (fun x => (Except.ok x : Except String (Option JsObj)))
    (fun _ => rfl)).2

/-- C8.  testFunc does not mutate its options argument: in the
state-threaded body the options array after the call is the input array,
the filter having built a new array, and the result is that of testFunc. -/
theorem testFuncSt_no_mutation {σ : Type} (options : List JsObj) (r : ℚ)
    (onClick : Option JsObj → σ) :
    (testFuncSt options r onClick).1 = options
    ∧ (testFuncSt options r onClick).2 = testFunc options r onClick :=
  ⟨rfl, rfl⟩

/-- C9.  When no entry carries the divider key the filtered array is
empty, the random index is zero, the out-of-bounds access yields
undefined, and the callback is invoked with undefined, here none. -/
theorem testFunc_no_divider {σ : Type} (options : List JsObj) (r : ℚ)
    (onClick : Option JsObj → σ) (h : ∀ o ∈ options, hasKey o dividerKey = false) :
    filteredDividers options = []
    ∧ ⌊r * ((filteredDividers options).length : ℚ)⌋ = 0
    ∧ jsIndex (filteredDividers options) ⌊r * ((filteredDividers options).length : ℚ)⌋ = none
    ∧ testFunc options r onClick = onClick none := by
  have hfil : filteredDividers options = [] := by
    simp only [filteredDividers, List.filter_eq_nil_iff]
    intro o ho
    simp [h o ho]
  have hfl : ⌊r * ((filteredDividers options).length : ℚ)⌋ = 0 := by
    rw [hfil]
    simp
  have hidx : jsIndex (filteredDividers options) ⌊r * ((filteredDividers options).length : ℚ)⌋ = none := by
    rw [hfil]
    simp [jsIndex]
  have ht : testFunc options r onClick
      = onClick (jsIndex (filteredDividers options)
          ⌊r * ((filteredDividers options).length : ℚ)⌋) := rfl
  exact ⟨hfil, hfl, hidx, by rw [ht, hidx]⟩

/-- Witness for C9: a two-entry array with no divider key and r one
third; the callback receives none, the model of undefined. -/
theorem testFunc_no_divider_witness :
    testFunc noDividerOptions (1/3) (fun x => (x : Option JsObj)) = none :=
  (testFunc_no_divider noDividerOptions (1/3) (fun x => x) (by decide)).2.2.2
